import Mathlib

/-!
Verification development for the tt-umd coordinate translation engine and
TLB-window access protocol.

The repository sources at hand contain the unit tests of the coordinate
manager (`CoordinateManagerWormhole*`), the silicon driver tests
(`test_silicon_driver.cpp`) and the Wormhole `l1_address_map.h` header.
The coordinate-manager and cluster implementations themselves are not among
the sampled sources, so they are modelled here from the specification
(section 4.1 "Coordinate Manager", 4.2 "TLB Window Pool", 4.3 "Access
Engine") with the architecture constants pinned by the unit tests
(Wormhole tensix grid 8 x 10, translated offsets +18/+18 for TENSIX and
+18/+16 for ETH, virtual top-left tensix core (1, 1), physical top-left
tensix core (1, 2) when the first row is harvested).
-/

/-- Pair of coordinates, mirroring `tt_xy_pair` from the sources. -/
structure tt_xy_pair where
  x : Nat
  y : Nat
  deriving DecidableEq, Repr

/-- Core types of the chip, mirroring `CoreType` from the sources. -/
inductive CoreType where
  | TENSIX
  | DRAM
  | ETH
  | ARC
  | PCIE
  deriving DecidableEq, Repr

/-- Coordinate systems, mirroring `CoordSystem` from the sources. -/
inductive CoordSystem where
  | LOGICAL
  | PHYSICAL
  | VIRTUAL
  | TRANSLATED
  deriving DecidableEq, Repr

/-- Core coordinate: position, core type and coordinate system, mirroring
`CoreCoord` from the sources. -/
structure CoreCoord where
  x : Nat
  y : Nat
  core_type : CoreType
  coord_system : CoordSystem
  deriving DecidableEq, Repr

namespace wormhole

/-- Modelled from the spec: size of the Wormhole tensix grid
(`tt::umd::wormhole::TENSIX_GRID_SIZE`); the unit tests iterate harvesting
masks below `2^10`, pinning ten tensix rows, and the reference Wormhole
grid has eight tensix columns. -/
def TENSIX_GRID_SIZE : tt_xy_pair := ⟨8, 10⟩

/-- Modelled from the spec: the physical (NOC) x locations of the eight
tensix columns on Wormhole, in column scan order.  Pinned by the unit
tests: the top-left tensix core has physical and virtual x coordinate 1. -/
def TENSIX_X_LOCATIONS : List Nat := [1, 2, 3, 4, 6, 7, 8, 9]

/-- Modelled from the spec: the physical (NOC) y locations of the ten
tensix rows on Wormhole, in row scan order.  Pinned by the unit tests:
with harvesting mask 1 the first functional row has physical y 2 while the
virtual y of logical row 0 stays 1. -/
def TENSIX_Y_LOCATIONS : List Nat := [1, 2, 3, 4, 5, 7, 8, 9, 10, 11]

/-- Modelled from the spec: translated coordinates of tensix cores start at
(18, 18) on Wormhole (`translated_x_start`/`translated_y_start` in the unit
tests). -/
def tensix_translated_start : tt_xy_pair := ⟨18, 18⟩

/-- Modelled from the spec: size of the Wormhole ETH grid. -/
def ETH_GRID_SIZE : tt_xy_pair := ⟨8, 2⟩

/-- Modelled from the spec: physical locations of the sixteen Wormhole
ethernet cores, indexed in logical scan order. -/
def ETH_CORES : List tt_xy_pair :=
  [⟨9, 0⟩, ⟨1, 0⟩, ⟨8, 0⟩, ⟨2, 0⟩, ⟨7, 0⟩, ⟨3, 0⟩, ⟨6, 0⟩, ⟨4, 0⟩,
   ⟨9, 6⟩, ⟨1, 6⟩, ⟨8, 6⟩, ⟨2, 6⟩, ⟨7, 6⟩, ⟨3, 6⟩, ⟨6, 6⟩, ⟨4, 6⟩]

/-- Modelled from the spec: translated coordinates of ETH cores apply the
fixed offset (+18, +16) to the logical coordinate, as asserted by
`CoordinateManagerWormholeETHLogicalToTranslated`. -/
def eth_translated_start : tt_xy_pair := ⟨18, 16⟩

/-- Modelled from the spec: size of the Wormhole ARC grid. -/
def ARC_GRID_SIZE : tt_xy_pair := ⟨1, 1⟩

/-- Modelled from the spec: physical location of the Wormhole ARC core. -/
def ARC_CORES : List tt_xy_pair := [⟨0, 10⟩]

/-- Modelled from the spec: size of the Wormhole PCIE grid. -/
def PCIE_GRID_SIZE : tt_xy_pair := ⟨1, 1⟩

/-- Modelled from the spec: physical location of the Wormhole PCIE core. -/
def PCIE_CORES : List tt_xy_pair := [⟨0, 3⟩]

/-- Modelled from the spec: number of Wormhole DRAM banks
(`tt::umd::wormhole::NUM_DRAM_BANKS`). -/
def NUM_DRAM_BANKS : Nat := 6

/-- Modelled from the spec: number of NOC ports per Wormhole DRAM bank
(`tt::umd::wormhole::NUM_NOC_PORTS_PER_DRAM_BANK`). -/
def NUM_NOC_PORTS_PER_DRAM_BANK : Nat := 3

/-- Modelled from the spec: physical locations of the Wormhole DRAM NOC
ports, bank-major (`tt::umd::wormhole::DRAM_CORES`). -/
def DRAM_CORES : List tt_xy_pair :=
  [⟨0, 0⟩, ⟨0, 1⟩, ⟨0, 11⟩, ⟨0, 5⟩, ⟨0, 6⟩, ⟨0, 7⟩,
   ⟨5, 0⟩, ⟨5, 1⟩, ⟨5, 11⟩, ⟨5, 2⟩, ⟨5, 9⟩, ⟨5, 10⟩,
   ⟨5, 3⟩, ⟨5, 4⟩, ⟨5, 8⟩, ⟨5, 5⟩, ⟨5, 6⟩, ⟨5, 7⟩]

end wormhole

/-- Population count of a harvesting mask, modelled from the spec:
`get_num_harvested(mask)` is the population count of the mask. -/
def get_num_harvested (mask : Nat) : Nat :=
  if mask = 0 then 0 else mask % 2 + get_num_harvested (mask / 2)
termination_by mask
decreasing_by
  exact Nat.div_lt_self (Nat.pos_of_ne_zero (by assumption)) (by decide)

/-- Indices of the rows among `0 .. n-1` that are not harvested by `mask`,
in scan order.  Modelled from the spec: "scan the full physical grid in a
fixed row-major order; skip rows/units marked harvested". -/
def functional_rows (mask n : Nat) : List Nat :=
  (List.range n).filter (fun r => !(mask.testBit r))

/-- Position of a value in a list of naturals, used for the inverse lookup
tables of the coordinate manager. -/
def locate : List Nat → Nat → Option Nat
  | [], _ => none
  | b :: l, a => if b = a then some 0 else (locate l a).map (· + 1)

/-- Position of a coordinate pair in a list, used for the inverse lookup
tables of the coordinate manager. -/
def locatePair : List tt_xy_pair → tt_xy_pair → Option Nat
  | [], _ => none
  | b :: l, a => if b = a then some 0 else (locatePair l a).map (· + 1)

/-- Modelled from the spec: logical-to-physical translation for tensix
cores.  The y-th functional row (harvested rows skipped in scan order) is
looked up in the fixed physical row-location table; the x-th column in the
fixed physical column-location table. -/
def tensix_logical_to_physical (mask x y : Nat) : Option tt_xy_pair :=
  (wormhole.TENSIX_X_LOCATIONS[x]?).bind fun px =>
    ((functional_rows mask wormhole.TENSIX_GRID_SIZE.y)[y]?).bind fun r =>
      (wormhole.TENSIX_Y_LOCATIONS[r]?).map fun py => ⟨px, py⟩

/-- Modelled from the spec: logical-to-virtual translation for tensix
cores.  Virtual coordinates use the same fixed location tables but do not
skip harvested rows: logical row y gets the y-th virtual row location,
independent of which rows are harvested. -/
def tensix_logical_to_virtual (mask x y : Nat) : Option tt_xy_pair :=
  if y < (functional_rows mask wormhole.TENSIX_GRID_SIZE.y).length then
    (wormhole.TENSIX_X_LOCATIONS[x]?).bind fun px =>
      (wormhole.TENSIX_Y_LOCATIONS[y]?).map fun py => ⟨px, py⟩
  else none

/-- Modelled from the spec: logical-to-translated translation for tensix
cores applies the fixed Wormhole offset (+18, +18). -/
def tensix_logical_to_translated (mask x y : Nat) : Option tt_xy_pair :=
  if x < wormhole.TENSIX_GRID_SIZE.x ∧
      y < (functional_rows mask wormhole.TENSIX_GRID_SIZE.y).length then
    some ⟨wormhole.tensix_translated_start.x + x, wormhole.tensix_translated_start.y + y⟩
  else none

/-- Modelled from the spec: physical-to-logical inverse lookup for tensix
cores; fails on a harvested row. -/
def tensix_physical_to_logical (mask : Nat) (p : tt_xy_pair) : Option tt_xy_pair :=
  (locate wormhole.TENSIX_X_LOCATIONS p.x).bind fun x =>
    (locate wormhole.TENSIX_Y_LOCATIONS p.y).bind fun r =>
      if mask.testBit r then none
      else some ⟨x, (functional_rows mask r).length⟩

/-- Modelled from the spec: virtual-to-logical inverse lookup for tensix
cores; fails on a row beyond the reduced functional grid. -/
def tensix_virtual_to_logical (mask : Nat) (p : tt_xy_pair) : Option tt_xy_pair :=
  (locate wormhole.TENSIX_X_LOCATIONS p.x).bind fun x =>
    (locate wormhole.TENSIX_Y_LOCATIONS p.y).bind fun y =>
      if y < (functional_rows mask wormhole.TENSIX_GRID_SIZE.y).length then
        some ⟨x, y⟩
      else none

/-- Modelled from the spec: translated-to-logical inverse lookup for tensix
cores subtracts the fixed Wormhole offset. -/
def tensix_translated_to_logical (mask : Nat) (p : tt_xy_pair) : Option tt_xy_pair :=
  if wormhole.tensix_translated_start.x ≤ p.x ∧ wormhole.tensix_translated_start.y ≤ p.y then
    let x := p.x - wormhole.tensix_translated_start.x
    let y := p.y - wormhole.tensix_translated_start.y
    if x < wormhole.TENSIX_GRID_SIZE.x ∧
        y < (functional_rows mask wormhole.TENSIX_GRID_SIZE.y).length then
      some ⟨x, y⟩
    else none
  else none

/-- Modelled from the spec: logical-to-physical translation for grid core
types that are never harvested: the logical grid is flattened bank-major
into the fixed physical core list. -/
def grid_logical_to_physical (grid : tt_xy_pair) (cores : List tt_xy_pair)
    (x y : Nat) : Option tt_xy_pair :=
  if x < grid.x ∧ y < grid.y then cores[x * grid.y + y]? else none

/-- Modelled from the spec: physical-to-logical inverse for grid core
types that are never harvested. -/
def grid_physical_to_logical (grid : tt_xy_pair) (cores : List tt_xy_pair)
    (p : tt_xy_pair) : Option tt_xy_pair :=
  (locatePair cores p).bind fun i =>
    if i / grid.y < grid.x then some ⟨i / grid.y, i % grid.y⟩ else none

/-- Coordinate manager for a single Wormhole chip, modelled from the spec:
it is created per harvesting configuration, and the harvesting mask is
immutable afterward. -/
structure CoordinateManager where
  tensix_harvesting_mask : Nat
  deriving DecidableEq, Repr

namespace CoordinateManager

/-- Modelled from the spec: conversion of a tensix coordinate in any
system to the logical system; fails on harvested-out units. -/
def tensix_to_logical (cm : CoordinateManager) (sys : CoordSystem)
    (p : tt_xy_pair) : Option tt_xy_pair :=
  match sys with
  | .LOGICAL =>
    if p.x < wormhole.TENSIX_GRID_SIZE.x ∧
        p.y < (functional_rows cm.tensix_harvesting_mask wormhole.TENSIX_GRID_SIZE.y).length then
      some p
    else none
  | .PHYSICAL => tensix_physical_to_logical cm.tensix_harvesting_mask p
  | .VIRTUAL => tensix_virtual_to_logical cm.tensix_harvesting_mask p
  | .TRANSLATED => tensix_translated_to_logical cm.tensix_harvesting_mask p

/-- Modelled from the spec: conversion of a logical tensix coordinate to
the target system. -/
def tensix_from_logical (cm : CoordinateManager) (sys : CoordSystem)
    (p : tt_xy_pair) : Option tt_xy_pair :=
  match sys with
  | .LOGICAL => some p
  | .PHYSICAL => tensix_logical_to_physical cm.tensix_harvesting_mask p.x p.y
  | .VIRTUAL => tensix_logical_to_virtual cm.tensix_harvesting_mask p.x p.y
  | .TRANSLATED => tensix_logical_to_translated cm.tensix_harvesting_mask p.x p.y

/-- Modelled from the spec: conversion of a never-harvested grid core
coordinate to the logical system.  Virtual coordinates equal physical
coordinates for these core types.  Translated coordinates apply a
core-type-fixed offset to the logical coordinate when `toff` carries one
(ETH on Wormhole); with no offset (ARC, PCIE, DRAM on Wormhole) the
translated coordinates coincide with the physical ones, as asserted by
`CoordinateManagerWormholeARCTranslation` and
`CoordinateManagerWormholePCIETranslation`. -/
def grid_to_logical (grid : tt_xy_pair) (cores : List tt_xy_pair)
    (toff : Option tt_xy_pair) (sys : CoordSystem) (p : tt_xy_pair) : Option tt_xy_pair :=
  match sys with
  | .LOGICAL => if p.x < grid.x ∧ p.y < grid.y then some p else none
  | .PHYSICAL => grid_physical_to_logical grid cores p
  | .VIRTUAL => grid_physical_to_logical grid cores p
  | .TRANSLATED =>
    match toff with
    | some off =>
      if off.x ≤ p.x ∧ off.y ≤ p.y ∧ p.x - off.x < grid.x ∧ p.y - off.y < grid.y then
        some ⟨p.x - off.x, p.y - off.y⟩
      else none
    | none => grid_physical_to_logical grid cores p

/-- Modelled from the spec: conversion of a logical never-harvested grid
core coordinate to the target system. -/
def grid_from_logical (grid : tt_xy_pair) (cores : List tt_xy_pair)
    (toff : Option tt_xy_pair) (sys : CoordSystem) (p : tt_xy_pair) : Option tt_xy_pair :=
  match sys with
  | .LOGICAL => some p
  | .PHYSICAL => grid_logical_to_physical grid cores p.x p.y
  | .VIRTUAL => grid_logical_to_physical grid cores p.x p.y
  | .TRANSLATED =>
    match toff with
    | some off =>
      if p.x < grid.x ∧ p.y < grid.y then some ⟨off.x + p.x, off.y + p.y⟩ else none
    | none => grid_logical_to_physical grid cores p.x p.y

/-- Modelled from the spec: translation `to(coord, target_system)` (the
source method is named `to`, which Lean reserves, hence the prime).
Conversion goes through the logical system and fails if the coordinate
addresses a harvested-out unit or lies outside its grid. -/
def to' (cm : CoordinateManager) (c : CoreCoord) (target : CoordSystem) : Option CoreCoord :=
  match c.core_type with
  | .TENSIX =>
    (cm.tensix_to_logical c.coord_system ⟨c.x, c.y⟩).bind fun l =>
      (cm.tensix_from_logical target l).map fun p => ⟨p.x, p.y, .TENSIX, target⟩
  | .ETH =>
    (grid_to_logical wormhole.ETH_GRID_SIZE wormhole.ETH_CORES
        (some wormhole.eth_translated_start) c.coord_system ⟨c.x, c.y⟩).bind fun l =>
      (grid_from_logical wormhole.ETH_GRID_SIZE wormhole.ETH_CORES
          (some wormhole.eth_translated_start) target l).map fun p => ⟨p.x, p.y, .ETH, target⟩
  | .ARC =>
    (grid_to_logical wormhole.ARC_GRID_SIZE wormhole.ARC_CORES
        none c.coord_system ⟨c.x, c.y⟩).bind fun l =>
      (grid_from_logical wormhole.ARC_GRID_SIZE wormhole.ARC_CORES
          none target l).map fun p => ⟨p.x, p.y, .ARC, target⟩
  | .PCIE =>
    (grid_to_logical wormhole.PCIE_GRID_SIZE wormhole.PCIE_CORES
        none c.coord_system ⟨c.x, c.y⟩).bind fun l =>
      (grid_from_logical wormhole.PCIE_GRID_SIZE wormhole.PCIE_CORES
          none target l).map fun p => ⟨p.x, p.y, .PCIE, target⟩
  | .DRAM =>
    (grid_to_logical ⟨wormhole.NUM_DRAM_BANKS, wormhole.NUM_NOC_PORTS_PER_DRAM_BANK⟩
        wormhole.DRAM_CORES none c.coord_system ⟨c.x, c.y⟩).bind fun l =>
      (grid_from_logical ⟨wormhole.NUM_DRAM_BANKS, wormhole.NUM_NOC_PORTS_PER_DRAM_BANK⟩
          wormhole.DRAM_CORES none target l).map fun p => ⟨p.x, p.y, .DRAM, target⟩

end CoordinateManager

/-- Chip architectures in scope of the sampled sources. -/
inductive ARCH where
  | WORMHOLE_B0
  deriving DecidableEq, Repr

/-- Configuration errors raised at coordinate-manager construction,
modelled from the spec error taxonomy (`ConfigurationError`). -/
inductive ConfigurationError where
  | unsupported_dram_harvesting_mask
  | invalid_tensix_harvesting_mask
  deriving DecidableEq, Repr

/-- Modelled from the spec: `create(architecture, harvesting_mask_by_core_type)`
fails with a configuration error if a non-zero harvesting mask is supplied
for a core type the architecture never harvests (DRAM on Wormhole), or if
the tensix mask has bits beyond the grid rows; the session is never
created in that case. -/
def create_coordinate_manager (arch : ARCH) (tensix_harvesting_mask : Nat)
    (dram_harvesting_mask : Nat) : Except ConfigurationError CoordinateManager :=
  match arch with
  | .WORMHOLE_B0 =>
    if dram_harvesting_mask ≠ 0 then
      .error .unsupported_dram_harvesting_mask
    else if 2 ^ wormhole.TENSIX_GRID_SIZE.y ≤ tensix_harvesting_mask then
      .error .invalid_tensix_harvesting_mask
    else
      .ok ⟨tensix_harvesting_mask⟩

/-- Unfolding equation of `get_num_harvested`, valid for every mask. -/
theorem get_num_harvested_eq (mask : Nat) :
    get_num_harvested mask = mask % 2 + get_num_harvested (mask / 2) := by
  rw [get_num_harvested]
  by_cases h : mask = 0
  · subst h; rw [get_num_harvested]; simp
  · simp [h]

/-- Successful `locate` returns the position of the value. -/
theorem locate_getElem {l : List Nat} {a i : Nat} (h : locate l a = some i) :
    l[i]? = some a := by
  induction l generalizing i with
  | nil => simp [locate] at h
  | cons b l ih =>
    by_cases hb : b = a
    · simp [locate, hb] at h
      subst hb; simp [← h]
    · simp only [locate, if_neg hb, Option.map_eq_some'] at h
      obtain ⟨j, hj, rfl⟩ := h
      simpa using ih hj

/-- On a duplicate-free list, `locate` inverts indexing. -/
theorem getElem_locate {l : List Nat} (hnd : l.Nodup) {i a : Nat}
    (h : l[i]? = some a) : locate l a = some i := by
  induction l generalizing i with
  | nil => simp at h
  | cons b l ih =>
    cases i with
    | zero =>
      simp at h
      simp [locate, h]
    | succ j =>
      simp at h
      have hmem : a ∈ l := List.getElem?_mem h
      have hb : ¬b = a := by
        intro e
        exact (List.nodup_cons.mp hnd).1 (e ▸ hmem)
      simp [locate, hb, ih (List.nodup_cons.mp hnd).2 h]

/-- Successful `locatePair` returns the position of the value. -/
theorem locatePair_getElem {l : List tt_xy_pair} {a : tt_xy_pair} {i : Nat}
    (h : locatePair l a = some i) : l[i]? = some a := by
  induction l generalizing i with
  | nil => simp [locatePair] at h
  | cons b l ih =>
    by_cases hb : b = a
    · simp [locatePair, hb] at h
      subst hb; simp [← h]
    · simp only [locatePair, if_neg hb, Option.map_eq_some'] at h
      obtain ⟨j, hj, rfl⟩ := h
      simpa using ih hj

/-- The element at position `i` of a filtered range determines `i` as the
number of earlier kept indices: the filtered range is sorted, so the count
of kept indices below the element recovers the position. -/
theorem filter_range_index (p : Nat → Bool) :
    ∀ n i r : Nat, ((List.range n).filter p)[i]? = some r →
      ((List.range r).filter p).length = i := by
  intro n
  induction n with
  | zero => intro i r h; simp at h
  | succ n ih =>
    intro i r h
    rw [List.range_succ, List.filter_append] at h
    rcases lt_or_ge i ((List.range n).filter p).length with hi | hi
    · rw [List.getElem?_append_left hi] at h
      exact ih i r h
    · rw [List.getElem?_append_right hi] at h
      by_cases hp : p n
      · simp only [List.filter_cons, List.filter_nil, hp, if_pos] at h
        rcases eq_or_lt_of_le hi with he | hgt
        · rw [← he, Nat.sub_self] at h
          simp at h
          subst h
          exact he
        · rw [List.getElem?_eq_none (by simp; omega)] at h
          exact absurd h (by simp)
      · simp only [List.filter_cons, List.filter_nil, hp, if_neg] at h
        simp at h

/-- Elements delivered by indexing into a filtered range are kept indices
below the bound. -/
theorem filter_range_mem {p : Nat → Bool} {n i r : Nat}
    (h : ((List.range n).filter p)[i]? = some r) : r < n ∧ p r = true := by
  have hm := List.getElem?_mem h
  rw [List.mem_filter, List.mem_range] at hm
  exact hm

/-- The scan order visits each functional row once. -/
theorem functional_rows_nodup (mask n : Nat) : (functional_rows mask n).Nodup :=
  (List.nodup_range n).filter _

/-- Splitting a list by a Boolean predicate preserves the total length. -/
theorem length_filter_add_length_filter_not (p : α → Bool) (l : List α) :
    (l.filter p).length + (l.filter (fun a => !(p a))).length = l.length := by
  induction l with
  | nil => simp
  | cons a l ih => by_cases h : p a <;> simp [List.filter_cons, h] <;> omega

/-- Filtering a successor-mapped list matches filtering the original list
with the shifted predicate. -/
theorem length_filter_map_succ (p : Nat → Bool) (l : List Nat) :
    ((l.map Nat.succ).filter p).length = (l.filter (fun r => p (r + 1))).length := by
  induction l with
  | nil => simp
  | cons a l ih =>
    by_cases h : p (a + 1) <;>
      simp [List.filter_cons, Nat.succ_eq_add_one, h, ih]

/-- Population count of a mask below `2 ^ n` equals the number of set bits
among the first `n` bit positions. -/
theorem get_num_harvested_eq_countP :
    ∀ n mask : Nat, mask < 2 ^ n →
      get_num_harvested mask = ((List.range n).filter (fun r => mask.testBit r)).length := by
  intro n
  induction n with
  | zero =>
    intro mask h
    have h0 : mask = 0 := by omega
    subst h0
    rw [get_num_harvested]
    simp
  | succ n ih =>
    intro mask h
    rw [List.range_succ_eq_map, List.filter_cons]
    have hmap : (((List.range n).map Nat.succ).filter (fun r => mask.testBit r)).length
        = ((List.range n).filter (fun r => (mask / 2).testBit r)).length := by
      rw [length_filter_map_succ]
      have hfn : (fun r => mask.testBit (r + 1)) = (fun r => (mask / 2).testBit r) := by
        funext r
        rw [← Nat.testBit_succ]
      rw [hfn]
    have hdiv : mask / 2 < 2 ^ n := by
      rw [Nat.div_lt_iff_lt_mul (by norm_num)]
      calc mask < 2 ^ (n + 1) := h
        _ = 2 ^ n * 2 := by rw [pow_succ]
    rw [get_num_harvested_eq mask]
    by_cases hb : mask.testBit 0
    · rw [if_pos hb]
      simp only [List.length_cons]
      rw [hmap, ← ih _ hdiv]
      have h1 : mask % 2 = 1 := by simpa [Nat.testBit_zero] using hb
      omega
    · rw [if_neg hb]
      rw [hmap, ← ih _ hdiv]
      have h2 : mask % 2 ≠ 1 := by simpa [Nat.testBit_zero] using hb
      have h3 : mask % 2 < 2 := Nat.mod_lt _ (by norm_num)
      omega

/-- Length of the functional row list: the grid rows minus the population
count of the harvesting mask. -/
theorem functional_rows_length {mask n : Nat} (h : mask < 2 ^ n) :
    (functional_rows mask n).length = n - get_num_harvested mask := by
  have h1 := length_filter_add_length_filter_not (fun r => mask.testBit r) (List.range n)
  rw [List.length_range] at h1
  rw [get_num_harvested_eq_countP n mask h]
  unfold functional_rows
  omega

/-- Logical-to-physical tensix translation inverts back to the starting
logical coordinate. -/
theorem tensix_log_phys_roundtrip {mask x y : Nat} {p : tt_xy_pair}
    (h : tensix_logical_to_physical mask x y = some p) :
    tensix_physical_to_logical mask p = some ⟨x, y⟩ := by
  unfold tensix_logical_to_physical at h
  rw [Option.bind_eq_some] at h
  obtain ⟨px, hX, h⟩ := h
  rw [Option.bind_eq_some] at h
  obtain ⟨r, hF, h⟩ := h
  rw [Option.map_eq_some'] at h
  obtain ⟨py, hY, rfl⟩ := h
  have hlocX : locate wormhole.TENSIX_X_LOCATIONS px = some x :=
    getElem_locate (by decide) hX
  have hlocY : locate wormhole.TENSIX_Y_LOCATIONS py = some r :=
    getElem_locate (by decide) hY
  have hfr := filter_range_mem hF
  have hidx := filter_range_index _ _ _ _ hF
  have hbit : mask.testBit r = false := by
    have := hfr.2
    simpa using this
  unfold tensix_physical_to_logical
  simp only [hlocX, hlocY, Option.some_bind]
  rw [hbit]
  simp only [Bool.false_eq_true, if_false]
  exact congrArg some (congrArg _ hidx)

/-- Logical-to-virtual tensix translation inverts back to the starting
logical coordinate. -/
theorem tensix_log_virt_roundtrip {mask x y : Nat} {p : tt_xy_pair}
    (h : tensix_logical_to_virtual mask x y = some p) :
    tensix_virtual_to_logical mask p = some ⟨x, y⟩ := by
  unfold tensix_logical_to_virtual at h
  rcases Nat.lt_or_ge y (functional_rows mask wormhole.TENSIX_GRID_SIZE.y).length with hy | hy
  · rw [if_pos hy] at h
    rw [Option.bind_eq_some] at h
    obtain ⟨px, hX, h⟩ := h
    rw [Option.map_eq_some'] at h
    obtain ⟨py, hY, rfl⟩ := h
    have hlocX : locate wormhole.TENSIX_X_LOCATIONS px = some x :=
      getElem_locate (by decide) hX
    have hlocY : locate wormhole.TENSIX_Y_LOCATIONS py = some y :=
      getElem_locate (by decide) hY
    unfold tensix_virtual_to_logical
    simp only [hlocX, hlocY, Option.some_bind]
    rw [if_pos hy]
  · rw [if_neg (by omega)] at h
    exact absurd h (by simp)

/-- The logical-to-physical tensix translation succeeds exactly on the
dense functional logical grid. -/
theorem tensix_logical_to_physical_isSome (mask x y : Nat) :
    (tensix_logical_to_physical mask x y).isSome = true ↔
      x < wormhole.TENSIX_GRID_SIZE.x ∧
        y < (functional_rows mask wormhole.TENSIX_GRID_SIZE.y).length := by
  constructor
  · intro h
    rw [Option.isSome_iff_exists] at h
    obtain ⟨q, hq⟩ := h
    unfold tensix_logical_to_physical at hq
    rw [Option.bind_eq_some] at hq
    obtain ⟨px, hX, hq⟩ := hq
    rw [Option.bind_eq_some] at hq
    obtain ⟨r, hF, hq⟩ := hq
    constructor
    · have := (List.getElem?_eq_some.mp hX).1
      simpa [wormhole.TENSIX_X_LOCATIONS, wormhole.TENSIX_GRID_SIZE] using this
    · exact (List.getElem?_eq_some.mp hF).1
  · rintro ⟨hx, hy⟩
    obtain ⟨px, hX⟩ : ∃ px, wormhole.TENSIX_X_LOCATIONS[x]? = some px :=
      ⟨_, List.getElem?_eq_getElem
        (by simpa [wormhole.TENSIX_X_LOCATIONS, wormhole.TENSIX_GRID_SIZE] using hx)⟩
    obtain ⟨r, hF⟩ : ∃ r, (functional_rows mask wormhole.TENSIX_GRID_SIZE.y)[y]? = some r :=
      ⟨_, List.getElem?_eq_getElem hy⟩
    have hr := filter_range_mem hF
    obtain ⟨py, hY⟩ : ∃ py, wormhole.TENSIX_Y_LOCATIONS[r]? = some py :=
      ⟨_, List.getElem?_eq_getElem (by
        have h10 := hr.1
        simpa [wormhole.TENSIX_Y_LOCATIONS, wormhole.TENSIX_GRID_SIZE] using h10)⟩
    unfold tensix_logical_to_physical
    rw [hX, hF]
    simp only [Option.some_bind]
    rw [hY]
    simp

/-- Translation from a logical tensix coordinate through `to'` is the
composed lookup; the grid validation is subsumed by a successful lookup. -/
theorem to_tensix_logical_physical_iff {mask x y : Nat} {p : CoreCoord} :
    CoordinateManager.to' ⟨mask⟩ ⟨x, y, .TENSIX, .LOGICAL⟩ .PHYSICAL = some p ↔
      ∃ q, tensix_logical_to_physical mask x y = some q ∧
        p = ⟨q.x, q.y, .TENSIX, .PHYSICAL⟩ := by
  simp only [CoordinateManager.to', CoordinateManager.tensix_to_logical,
    CoordinateManager.tensix_from_logical]
  constructor
  · intro h
    by_cases hv : x < wormhole.TENSIX_GRID_SIZE.x ∧
        y < (functional_rows mask wormhole.TENSIX_GRID_SIZE.y).length
    · rw [if_pos hv] at h
      simp only [Option.some_bind, Option.map_eq_some'] at h
      obtain ⟨q, hq, rfl⟩ := h
      exact ⟨q, hq, rfl⟩
    · rw [if_neg hv] at h
      exact absurd h (by simp)
  · rintro ⟨q, hq, rfl⟩
    have hv := (tensix_logical_to_physical_isSome mask x y).mp (by rw [hq]; rfl)
    rw [if_pos hv]
    simp [hq]

/-- Translation from a logical tensix coordinate to the virtual system
through `to'` is the composed lookup. -/
theorem to_tensix_logical_virtual_iff {mask x y : Nat} {v : CoreCoord} :
    CoordinateManager.to' ⟨mask⟩ ⟨x, y, .TENSIX, .LOGICAL⟩ .VIRTUAL = some v ↔
      ∃ q, tensix_logical_to_virtual mask x y = some q ∧
        v = ⟨q.x, q.y, .TENSIX, .VIRTUAL⟩ := by
  simp only [CoordinateManager.to', CoordinateManager.tensix_to_logical,
    CoordinateManager.tensix_from_logical]
  constructor
  · intro h
    by_cases hv : x < wormhole.TENSIX_GRID_SIZE.x ∧
        y < (functional_rows mask wormhole.TENSIX_GRID_SIZE.y).length
    · rw [if_pos hv] at h
      simp only [Option.some_bind, Option.map_eq_some'] at h
      obtain ⟨q, hq, rfl⟩ := h
      exact ⟨q, hq, rfl⟩
    · rw [if_neg hv] at h
      exact absurd h (by simp)
  · rintro ⟨q, hq, rfl⟩
    have hv : x < wormhole.TENSIX_GRID_SIZE.x ∧
        y < (functional_rows mask wormhole.TENSIX_GRID_SIZE.y).length := by
      unfold tensix_logical_to_virtual at hq
      rcases Nat.lt_or_ge y (functional_rows mask wormhole.TENSIX_GRID_SIZE.y).length with hy | hy
      · rw [if_pos hy] at hq
        rw [Option.bind_eq_some] at hq
        obtain ⟨px, hX, hq⟩ := hq
        refine ⟨?_, hy⟩
        have := (List.getElem?_eq_some.mp hX).1
        simpa [wormhole.TENSIX_X_LOCATIONS, wormhole.TENSIX_GRID_SIZE] using this
      · rw [if_neg (by omega)] at hq
        exact absurd hq (by simp)
    rw [if_pos hv]
    simp [hq]

/-- Translation of a physical tensix coordinate to logical through `to'`
is the inverse lookup. -/
theorem to_tensix_physical_logical_eq (mask : Nat) (p : tt_xy_pair) :
    CoordinateManager.to' ⟨mask⟩ ⟨p.x, p.y, .TENSIX, .PHYSICAL⟩ .LOGICAL =
      (tensix_physical_to_logical mask p).map fun l => ⟨l.x, l.y, .TENSIX, .LOGICAL⟩ := by
  simp only [CoordinateManager.to', CoordinateManager.tensix_to_logical,
    CoordinateManager.tensix_from_logical]
  cases h : tensix_physical_to_logical mask p with
  | none => simp [h]
  | some l => simp [h]

/-- Translation of a virtual tensix coordinate to logical through `to'`
is the inverse lookup. -/
theorem to_tensix_virtual_logical_eq (mask : Nat) (p : tt_xy_pair) :
    CoordinateManager.to' ⟨mask⟩ ⟨p.x, p.y, .TENSIX, .VIRTUAL⟩ .LOGICAL =
      (tensix_virtual_to_logical mask p).map fun l => ⟨l.x, l.y, .TENSIX, .LOGICAL⟩ := by
  simp only [CoordinateManager.to', CoordinateManager.tensix_to_logical,
    CoordinateManager.tensix_from_logical]
  cases h : tensix_virtual_to_logical mask p with
  | none => simp [h]
  | some l => simp [h]

/-- C1: for every harvesting mask, the coordinate manager's
Logical-to-Physical and Logical-to-Virtual translations via `to'` are
injective over the functional (non-harvested) units, and translation is
its own inverse: translating a functional logical tensix coordinate to
the physical (resp. virtual) system and back recovers the original
coordinate. -/
theorem C1_logical_physical_virtual_bijective (mask : Nat) :
    (∀ x y : Nat, ∀ p : CoreCoord,
      CoordinateManager.to' ⟨mask⟩ ⟨x, y, .TENSIX, .LOGICAL⟩ .PHYSICAL = some p →
        CoordinateManager.to' ⟨mask⟩ p .LOGICAL = some ⟨x, y, .TENSIX, .LOGICAL⟩) ∧
    (∀ x y : Nat, ∀ v : CoreCoord,
      CoordinateManager.to' ⟨mask⟩ ⟨x, y, .TENSIX, .LOGICAL⟩ .VIRTUAL = some v →
        CoordinateManager.to' ⟨mask⟩ v .LOGICAL = some ⟨x, y, .TENSIX, .LOGICAL⟩) ∧
    (∀ x₁ y₁ x₂ y₂ : Nat, ∀ p : CoreCoord,
      CoordinateManager.to' ⟨mask⟩ ⟨x₁, y₁, .TENSIX, .LOGICAL⟩ .PHYSICAL = some p →
      CoordinateManager.to' ⟨mask⟩ ⟨x₂, y₂, .TENSIX, .LOGICAL⟩ .PHYSICAL = some p →
        x₁ = x₂ ∧ y₁ = y₂) ∧
    (∀ x₁ y₁ x₂ y₂ : Nat, ∀ v : CoreCoord,
      CoordinateManager.to' ⟨mask⟩ ⟨x₁, y₁, .TENSIX, .LOGICAL⟩ .VIRTUAL = some v →
      CoordinateManager.to' ⟨mask⟩ ⟨x₂, y₂, .TENSIX, .LOGICAL⟩ .VIRTUAL = some v →
        x₁ = x₂ ∧ y₁ = y₂) := by
  have hphys : ∀ x y : Nat, ∀ p : CoreCoord,
      CoordinateManager.to' ⟨mask⟩ ⟨x, y, .TENSIX, .LOGICAL⟩ .PHYSICAL = some p →
        CoordinateManager.to' ⟨mask⟩ p .LOGICAL = some ⟨x, y, .TENSIX, .LOGICAL⟩ := by
    intro x y p h
    obtain ⟨q, hq, rfl⟩ := to_tensix_logical_physical_iff.mp h
    rw [to_tensix_physical_logical_eq mask q, tensix_log_phys_roundtrip hq]
    rfl
  have hvirt : ∀ x y : Nat, ∀ v : CoreCoord,
      CoordinateManager.to' ⟨mask⟩ ⟨x, y, .TENSIX, .LOGICAL⟩ .VIRTUAL = some v →
        CoordinateManager.to' ⟨mask⟩ v .LOGICAL = some ⟨x, y, .TENSIX, .LOGICAL⟩ := by
    intro x y v h
    obtain ⟨q, hq, rfl⟩ := to_tensix_logical_virtual_iff.mp h
    rw [to_tensix_virtual_logical_eq mask q, tensix_log_virt_roundtrip hq]
    rfl
  refine ⟨hphys, hvirt, ?_, ?_⟩
  · intro x₁ y₁ x₂ y₂ p h₁ h₂
    have e₁ := hphys x₁ y₁ p h₁
    have e₂ := hphys x₂ y₂ p h₂
    rw [e₁] at e₂
    exact ⟨congrArg CoreCoord.x (Option.some_injective _ e₂),
      congrArg CoreCoord.y (Option.some_injective _ e₂)⟩
  · intro x₁ y₁ x₂ y₂ v h₁ h₂
    have e₁ := hvirt x₁ y₁ v h₁
    have e₂ := hvirt x₂ y₂ v h₂
    rw [e₁] at e₂
    exact ⟨congrArg CoreCoord.x (Option.some_injective _ e₂),
      congrArg CoreCoord.y (Option.some_injective _ e₂)⟩

/-- C1 witness: under harvesting mask 1, logical tensix (0, 0) maps to
physical (1, 2), and translating back recovers logical (0, 0). -/
theorem C1_witness :
    CoordinateManager.to' ⟨1⟩ ⟨1, 2, .TENSIX, .PHYSICAL⟩ .LOGICAL =
      some ⟨0, 0, .TENSIX, .LOGICAL⟩ :=
  (C1_logical_physical_virtual_bijective 1).1 0 0 ⟨1, 2, .TENSIX, .PHYSICAL⟩ (by decide)

/-- C2: coordinate-manager construction fails with a configuration error
(the session is never created) whenever a non-zero harvesting mask is
supplied for a core type the architecture never harvests, such as a
non-zero DRAM harvesting mask on Wormhole. -/
theorem C2_dram_harvesting_rejected (tensix_mask dram_mask : Nat)
    (h : dram_mask ≠ 0) :
    create_coordinate_manager .WORMHOLE_B0 tensix_mask dram_mask =
      .error .unsupported_dram_harvesting_mask := by
  unfold create_coordinate_manager
  rw [if_pos h]

/-- C2 witness: the construction rejected by the unit test,
`create_coordinate_manager(WORMHOLE_B0, 0, 1)`, fails. -/
theorem C2_witness :
    create_coordinate_manager .WORMHOLE_B0 0 1 =
      .error .unsupported_dram_harvesting_mask :=
  C2_dram_harvesting_rejected 0 1 (by decide)

/-- C6: on the reference Wormhole grid with harvesting mask 1 (first row
harvested), the tensix core at logical (0, 0) translates to virtual (1, 1)
and to physical (1, 2). -/
theorem C6_top_left_core :
    CoordinateManager.to' ⟨1⟩ ⟨0, 0, .TENSIX, .LOGICAL⟩ .VIRTUAL =
      some ⟨1, 1, .TENSIX, .VIRTUAL⟩ ∧
    CoordinateManager.to' ⟨1⟩ ⟨0, 0, .TENSIX, .LOGICAL⟩ .PHYSICAL =
      some ⟨1, 2, .TENSIX, .PHYSICAL⟩ := by
  exact ⟨by decide, by decide⟩

/-- Success of the full `to'` translation from logical tensix coordinates
to the physical system matches success of the underlying lookup. -/
theorem to_tensix_logical_physical_isSome (mask x y : Nat) :
    (CoordinateManager.to' ⟨mask⟩ ⟨x, y, .TENSIX, .LOGICAL⟩ .PHYSICAL).isSome = true ↔
      x < wormhole.TENSIX_GRID_SIZE.x ∧
        y < (functional_rows mask wormhole.TENSIX_GRID_SIZE.y).length := by
  rw [← tensix_logical_to_physical_isSome]
  constructor
  · intro h
    rw [Option.isSome_iff_exists] at h
    obtain ⟨p, hp⟩ := h
    obtain ⟨q, hq, rfl⟩ := to_tensix_logical_physical_iff.mp hp
    rw [hq]
    rfl
  · intro h
    rw [Option.isSome_iff_exists] at h
    obtain ⟨q, hq⟩ := h
    have : CoordinateManager.to' ⟨mask⟩ ⟨x, y, .TENSIX, .LOGICAL⟩ .PHYSICAL =
        some ⟨q.x, q.y, .TENSIX, .PHYSICAL⟩ :=
      to_tensix_logical_physical_iff.mpr ⟨q, hq, rfl⟩
    rw [this]
    rfl

/-- C3: for every harvesting mask with popcount k, the functional tensix
logical grid is exactly the dense rectangle of width 8 (the grid columns)
and height 10 - k (the grid rows minus the harvested rows), and it holds
(10 - k) * 8 distinct units with no gaps or duplicates. -/
theorem C3_dense_functional_logical_grid (mask : Nat) (hm : mask < 2 ^ 10) :
    (∀ x y : Nat,
      (CoordinateManager.to' ⟨mask⟩ ⟨x, y, .TENSIX, .LOGICAL⟩ .PHYSICAL).isSome = true ↔
        x < 8 ∧ y < 10 - get_num_harvested mask) ∧
    ((Finset.range 8 ×ˢ Finset.range 10).filter fun q =>
        (CoordinateManager.to' ⟨mask⟩ ⟨q.1, q.2, .TENSIX, .LOGICAL⟩ .PHYSICAL).isSome
          = true).card
      = (10 - get_num_harvested mask) * 8 := by
  have hlen : (functional_rows mask wormhole.TENSIX_GRID_SIZE.y).length =
      10 - get_num_harvested mask := functional_rows_length hm
  have hiff : ∀ x y : Nat,
      (CoordinateManager.to' ⟨mask⟩ ⟨x, y, .TENSIX, .LOGICAL⟩ .PHYSICAL).isSome = true ↔
        x < 8 ∧ y < 10 - get_num_harvested mask := by
    intro x y
    rw [to_tensix_logical_physical_isSome, hlen]
    exact Iff.rfl
  refine ⟨hiff, ?_⟩
  have hset : ((Finset.range 8 ×ˢ Finset.range 10).filter fun q =>
      (CoordinateManager.to' ⟨mask⟩ ⟨q.1, q.2, .TENSIX, .LOGICAL⟩ .PHYSICAL).isSome
        = true)
      = Finset.range 8 ×ˢ Finset.range (10 - get_num_harvested mask) := by
    ext q
    simp only [Finset.mem_filter, Finset.mem_product, Finset.mem_range]
    rw [hiff q.1 q.2]
    omega
  rw [hset, Finset.card_product, Finset.card_range, Finset.card_range, Nat.mul_comm]

/-- C3 witness: under harvesting mask 3 (two harvested rows) the functional
logical tensix grid is the dense 8-by-8 rectangle with 64 units. -/
theorem C3_witness :
    ((CoordinateManager.to' ⟨3⟩ ⟨0, 7, .TENSIX, .LOGICAL⟩ .PHYSICAL).isSome = true ↔
      0 < 8 ∧ 7 < 10 - get_num_harvested 3) ∧
    ((Finset.range 8 ×ˢ Finset.range 10).filter fun q =>
        (CoordinateManager.to' ⟨3⟩ ⟨q.1, q.2, .TENSIX, .LOGICAL⟩ .PHYSICAL).isSome
          = true).card
      = (10 - get_num_harvested 3) * 8 :=
  ⟨(C3_dense_functional_logical_grid 3 (by norm_num)).1 0 7,
    (C3_dense_functional_logical_grid 3 (by norm_num)).2⟩

/-- With an all-zero mask no row is harvested: the functional rows are the
full row range. -/
theorem functional_rows_zero (n : Nat) : functional_rows 0 n = List.range n := by
  unfold functional_rows
  rw [List.filter_eq_self.mpr]
  intro a _
  simp [Nat.zero_testBit]

/-- C5: when the harvesting mask is zero, for every core type and every
logical coordinate of that type, the physical coordinate produced by
`to'` equals the virtual coordinate produced by `to'`. -/
theorem C5_physical_equals_virtual_no_harvesting (t : CoreType) (x y : Nat)
    (pc vc : CoreCoord)
    (hp : CoordinateManager.to' ⟨0⟩ ⟨x, y, t, .LOGICAL⟩ .PHYSICAL = some pc)
    (hv : CoordinateManager.to' ⟨0⟩ ⟨x, y, t, .LOGICAL⟩ .VIRTUAL = some vc) :
    pc.x = vc.x ∧ pc.y = vc.y := by
  cases t
  case TENSIX =>
    obtain ⟨q, hq, rfl⟩ := to_tensix_logical_physical_iff.mp hp
    obtain ⟨q', hq', rfl⟩ := to_tensix_logical_virtual_iff.mp hv
    suffices hqq : q = q' by rw [hqq]; exact ⟨rfl, rfl⟩
    unfold tensix_logical_to_physical at hq
    unfold tensix_logical_to_virtual at hq'
    rw [functional_rows_zero] at hq hq'
    rw [Option.bind_eq_some] at hq
    obtain ⟨px, hX, hq⟩ := hq
    rw [Option.bind_eq_some] at hq
    obtain ⟨r, hR, hq⟩ := hq
    have hylt : y < wormhole.TENSIX_GRID_SIZE.y := by
      have := (List.getElem?_eq_some.mp hR).1
      simpa using this
    have hr : r = y := by
      have := List.getElem?_range hylt
      rw [this] at hR
      exact (Option.some_injective _ hR).symm
    subst hr
    rw [if_pos (by simpa using hylt)] at hq'
    rw [Option.bind_eq_some] at hq'
    obtain ⟨px', hX', hq'⟩ := hq'
    rw [hX] at hX'
    have hpx : px = px' := Option.some_injective _ hX'
    subst hpx
    rw [hq] at hq'
    exact Option.some_injective _ hq'
  all_goals {
    simp only [CoordinateManager.to', CoordinateManager.grid_to_logical,
      CoordinateManager.grid_from_logical] at hp hv
    rcases Option.bind_eq_some.mp hp with ⟨l, hl, hp2⟩
    rcases Option.bind_eq_some.mp hv with ⟨l', hl', hv2⟩
    rw [hl] at hl'
    have hll : l = l' := Option.some_injective _ hl'
    subst hll
    rcases Option.map_eq_some'.mp hp2 with ⟨q, hq, rfl⟩
    rcases Option.map_eq_some'.mp hv2 with ⟨q', hq', rfl⟩
    rw [hq] at hq'
    have hqq : q = q' := Option.some_injective _ hq'
    subst hqq
    exact ⟨rfl, rfl⟩
  }

/-- C5 witness: with mask 0 the tensix core at logical (0, 0) has physical
coordinate (1, 1) equal to its virtual coordinate (1, 1). -/
theorem C5_witness :
    CoreCoord.x ⟨1, 1, .TENSIX, .PHYSICAL⟩ = CoreCoord.x ⟨1, 1, .TENSIX, .VIRTUAL⟩ ∧
    CoreCoord.y ⟨1, 1, .TENSIX, .PHYSICAL⟩ = CoreCoord.y ⟨1, 1, .TENSIX, .VIRTUAL⟩ :=
  C5_physical_equals_virtual_no_harvesting .TENSIX 0 0 _ _ (by decide) (by decide)

/-- A functional logical tensix coordinate translates to the fixed
Wormhole translated start offset by its logical position. -/
theorem to_tensix_logical_translated_eq (mask x y : Nat)
    (hb : x < wormhole.TENSIX_GRID_SIZE.x ∧
      y < (functional_rows mask wormhole.TENSIX_GRID_SIZE.y).length) :
    CoordinateManager.to' ⟨mask⟩ ⟨x, y, .TENSIX, .LOGICAL⟩ .TRANSLATED =
      some ⟨18 + x, 18 + y, .TENSIX, .TRANSLATED⟩ := by
  simp only [CoordinateManager.to', CoordinateManager.tensix_to_logical,
    CoordinateManager.tensix_from_logical]
  rw [if_pos hb]
  simp only [Option.some_bind]
  unfold tensix_logical_to_translated
  rw [if_pos hb]
  rfl

/-- C10: translation to the translated system is independent of the source
coordinate system: whenever a functional tensix core has logical position
(x, y), its logical, physical and virtual representations all translate to
the same translated coordinate (18 + x, 18 + y); in particular logical
(0, 0) always yields translated (18, 18). -/
theorem C10_translated_independent_of_source (mask x y : Nat) (cP cV : CoreCoord)
    (hP : CoordinateManager.to' ⟨mask⟩ ⟨x, y, .TENSIX, .LOGICAL⟩ .PHYSICAL = some cP)
    (hV : CoordinateManager.to' ⟨mask⟩ ⟨x, y, .TENSIX, .LOGICAL⟩ .VIRTUAL = some cV) :
    CoordinateManager.to' ⟨mask⟩ ⟨x, y, .TENSIX, .LOGICAL⟩ .TRANSLATED =
      some ⟨18 + x, 18 + y, .TENSIX, .TRANSLATED⟩ ∧
    CoordinateManager.to' ⟨mask⟩ cP .TRANSLATED =
      some ⟨18 + x, 18 + y, .TENSIX, .TRANSLATED⟩ ∧
    CoordinateManager.to' ⟨mask⟩ cV .TRANSLATED =
      some ⟨18 + x, 18 + y, .TENSIX, .TRANSLATED⟩ := by
  have hb : x < wormhole.TENSIX_GRID_SIZE.x ∧
      y < (functional_rows mask wormhole.TENSIX_GRID_SIZE.y).length := by
    rw [← to_tensix_logical_physical_isSome]
    rw [hP]
    rfl
  obtain ⟨q, hq, rfl⟩ := to_tensix_logical_physical_iff.mp hP
  obtain ⟨q', hq', rfl⟩ := to_tensix_logical_virtual_iff.mp hV
  refine ⟨to_tensix_logical_translated_eq mask x y hb, ?_, ?_⟩
  · simp only [CoordinateManager.to', CoordinateManager.tensix_to_logical,
      CoordinateManager.tensix_from_logical]
    rw [tensix_log_phys_roundtrip hq]
    simp only [Option.some_bind]
    unfold tensix_logical_to_translated
    rw [if_pos hb]
    rfl
  · simp only [CoordinateManager.to', CoordinateManager.tensix_to_logical,
      CoordinateManager.tensix_from_logical]
    rw [tensix_log_virt_roundtrip hq']
    simp only [Option.some_bind]
    unfold tensix_logical_to_translated
    rw [if_pos hb]
    rfl

/-- C10 witness: under harvesting mask 1 the tensix core with logical
position (0, 0), physical position (1, 2) and virtual position (1, 1)
translates to (18, 18) from all three coordinate systems. -/
theorem C10_witness :
    CoordinateManager.to' ⟨1⟩ ⟨0, 0, .TENSIX, .LOGICAL⟩ .TRANSLATED =
      some ⟨18 + 0, 18 + 0, .TENSIX, .TRANSLATED⟩ ∧
    CoordinateManager.to' ⟨1⟩ ⟨1, 2, .TENSIX, .PHYSICAL⟩ .TRANSLATED =
      some ⟨18 + 0, 18 + 0, .TENSIX, .TRANSLATED⟩ ∧
    CoordinateManager.to' ⟨1⟩ ⟨1, 1, .TENSIX, .VIRTUAL⟩ .TRANSLATED =
      some ⟨18 + 0, 18 + 0, .TENSIX, .TRANSLATED⟩ :=
  C10_translated_independent_of_source 1 0 0 ⟨1, 2, .TENSIX, .PHYSICAL⟩
    ⟨1, 1, .TENSIX, .VIRTUAL⟩ (by decide) (by decide)

/-- C4 counterexample: there is no single architecture-fixed offset shared
by the never-harvested core types.  On Wormhole the ARC core's translated
coordinate equals its physical coordinate (offset (0, 0)), while the ETH
core at logical (0, 0) has physical coordinate (9, 0) but translated
coordinate (18, 16), which is not the physical coordinate plus (0, 0). -/
theorem C4_counterexample :
    CoordinateManager.to' ⟨0⟩ ⟨0, 0, .ETH, .LOGICAL⟩ .PHYSICAL =
      some ⟨9, 0, .ETH, .PHYSICAL⟩ ∧
    CoordinateManager.to' ⟨0⟩ ⟨0, 0, .ETH, .LOGICAL⟩ .TRANSLATED =
      some ⟨18, 16, .ETH, .TRANSLATED⟩ ∧
    CoordinateManager.to' ⟨0⟩ ⟨0, 0, .ARC, .LOGICAL⟩ .PHYSICAL =
      some ⟨0, 10, .ARC, .PHYSICAL⟩ ∧
    CoordinateManager.to' ⟨0⟩ ⟨0, 0, .ARC, .LOGICAL⟩ .TRANSLATED =
      some ⟨0, 10, .ARC, .TRANSLATED⟩ ∧
    ¬ ∃ dx dy : Nat, (18 = 9 + dx ∧ 16 = 0 + dy) ∧ (0 = 0 + dx ∧ 10 = 10 + dy) := by
  refine ⟨by decide, by decide, by decide, by decide, ?_⟩
  rintro ⟨dx, dy, ⟨h1, h2⟩, h3, h4⟩
  omega

/-- C4 amended: for every harvesting mask and every core of a
never-harvested core type (ETH, ARC, PCIE), the virtual coordinate equals
the physical coordinate; the translated coordinate equals the physical
coordinate for ARC and PCIE (zero offset), while for ETH the translated
coordinate is the logical coordinate plus the fixed offset (18, 16) — a
core-type-specific offset, not one shared by all three core types. -/
theorem C4_never_harvested_types (mask : Nat) :
    (∀ t : CoreType, t = .ETH ∨ t = .ARC ∨ t = .PCIE →
      ∀ x y : Nat, ∀ pc vc : CoreCoord,
        CoordinateManager.to' ⟨mask⟩ ⟨x, y, t, .LOGICAL⟩ .PHYSICAL = some pc →
        CoordinateManager.to' ⟨mask⟩ ⟨x, y, t, .LOGICAL⟩ .VIRTUAL = some vc →
        pc.x = vc.x ∧ pc.y = vc.y) ∧
    (∀ t : CoreType, t = .ARC ∨ t = .PCIE →
      ∀ x y : Nat, ∀ pc tc : CoreCoord,
        CoordinateManager.to' ⟨mask⟩ ⟨x, y, t, .LOGICAL⟩ .PHYSICAL = some pc →
        CoordinateManager.to' ⟨mask⟩ ⟨x, y, t, .LOGICAL⟩ .TRANSLATED = some tc →
        tc.x = pc.x ∧ tc.y = pc.y) ∧
    (∀ x y : Nat, ∀ tc : CoreCoord,
      CoordinateManager.to' ⟨mask⟩ ⟨x, y, .ETH, .LOGICAL⟩ .TRANSLATED = some tc →
      tc.x = 18 + x ∧ tc.y = 16 + y) := by
  refine ⟨?_, ?_, ?_⟩
  · rintro t ht x y pc vc hp hv
    rcases ht with rfl | rfl | rfl
    all_goals {
      simp only [CoordinateManager.to', CoordinateManager.grid_to_logical,
        CoordinateManager.grid_from_logical] at hp hv
      rcases Option.bind_eq_some.mp hp with ⟨l, hl, hp2⟩
      rcases Option.bind_eq_some.mp hv with ⟨l', hl', hv2⟩
      rw [hl] at hl'
      have hll : l = l' := Option.some_injective _ hl'
      subst hll
      rcases Option.map_eq_some'.mp hp2 with ⟨q, hq, rfl⟩
      rcases Option.map_eq_some'.mp hv2 with ⟨q', hq', rfl⟩
      rw [hq] at hq'
      have hqq : q = q' := Option.some_injective _ hq'
      subst hqq
      exact ⟨rfl, rfl⟩
    }
  · rintro t ht x y pc tc hp htr
    rcases ht with rfl | rfl
    all_goals {
      simp only [CoordinateManager.to', CoordinateManager.grid_to_logical,
        CoordinateManager.grid_from_logical] at hp htr
      rcases Option.bind_eq_some.mp hp with ⟨l, hl, hp2⟩
      rcases Option.bind_eq_some.mp htr with ⟨l', hl', ht2⟩
      rw [hl] at hl'
      have hll : l = l' := Option.some_injective _ hl'
      subst hll
      rcases Option.map_eq_some'.mp hp2 with ⟨q, hq, rfl⟩
      rcases Option.map_eq_some'.mp ht2 with ⟨q', hq', rfl⟩
      rw [hq] at hq'
      have hqq : q = q' := Option.some_injective _ hq'
      subst hqq
      exact ⟨rfl, rfl⟩
    }
  · rintro x y tc htr
    simp only [CoordinateManager.to', CoordinateManager.grid_to_logical,
      CoordinateManager.grid_from_logical] at htr
    rcases Option.bind_eq_some.mp htr with ⟨l, hl, ht2⟩
    by_cases hb : x < wormhole.ETH_GRID_SIZE.x ∧ y < wormhole.ETH_GRID_SIZE.y
    · rw [if_pos hb] at hl
      have hlxy : l = ⟨x, y⟩ := (Option.some_injective _ hl).symm
      subst hlxy
      rcases Option.map_eq_some'.mp ht2 with ⟨q, hq, rfl⟩
      rw [if_pos hb] at hq
      have hq2 : q = ⟨wormhole.eth_translated_start.x + x,
          wormhole.eth_translated_start.y + y⟩ := (Option.some_injective _ hq).symm
      subst hq2
      exact ⟨rfl, rfl⟩
    · rw [if_neg hb] at hl
      exact absurd hl (by simp)

/-- C4 amended witness: with mask 0 the ARC core's physical and translated
coordinates agree at (0, 10), and the ETH core at logical (1, 1) has
translated coordinate (19, 17). -/
theorem C4_witness :
    (CoreCoord.x ⟨0, 10, .ARC, .TRANSLATED⟩ = CoreCoord.x ⟨0, 10, .ARC, .PHYSICAL⟩ ∧
      CoreCoord.y ⟨0, 10, .ARC, .TRANSLATED⟩ = CoreCoord.y ⟨0, 10, .ARC, .PHYSICAL⟩) ∧
    (CoreCoord.x ⟨19, 17, .ETH, .TRANSLATED⟩ = 18 + 1 ∧
      CoreCoord.y ⟨19, 17, .ETH, .TRANSLATED⟩ = 16 + 1) :=
  ⟨(C4_never_harvested_types 0).2.1 .ARC (Or.inl rfl) 0 0
      ⟨0, 10, .ARC, .PHYSICAL⟩ ⟨0, 10, .ARC, .TRANSLATED⟩ (by decide) (by decide),
    (C4_never_harvested_types 0).2.2 1 1 ⟨19, 17, .ETH, .TRANSLATED⟩ (by decide)⟩

namespace l1_mem

/-- Firmware region size from `l1_address_map.h`. -/
def FIRMWARE_SIZE : Nat := 20 * 1024

/-- NCRISC firmware region size from `l1_address_map.h`. -/
def NCRISC_FIRMWARE_SIZE : Nat := 32 * 1024

/-- TRISC0 region size from `l1_address_map.h`. -/
def TRISC0_SIZE : Nat := 20 * 1024

/-- TRISC1 region size from `l1_address_map.h`. -/
def TRISC1_SIZE : Nat := 16 * 1024

/-- TRISC2 region size from `l1_address_map.h`. -/
def TRISC2_SIZE : Nat := 20 * 1024

/-- Epoch runtime configuration size from `l1_address_map.h`. -/
def EPOCH_RUNTIME_CONFIG_SIZE : Nat := 128

/-- Overlay blob size from `l1_address_map.h`. -/
def OVERLAY_BLOB_SIZE : Nat := 64 * 1024 - EPOCH_RUNTIME_CONFIG_SIZE

/-- Tile header buffer size from `l1_address_map.h`. -/
def TILE_HEADER_BUF_SIZE : Nat := 32 * 1024

/-- Firmware base address from `l1_address_map.h`. -/
def FIRMWARE_BASE : Nat := 0

/-- NCRISC firmware base address from `l1_address_map.h`. -/
def NCRISC_FIRMWARE_BASE : Nat := FIRMWARE_BASE + FIRMWARE_SIZE

/-- TRISC0 base address from `l1_address_map.h`. -/
def TRISC0_BASE : Nat := NCRISC_FIRMWARE_BASE + NCRISC_FIRMWARE_SIZE

/-- TRISC1 base address from `l1_address_map.h`. -/
def TRISC1_BASE : Nat := TRISC0_BASE + TRISC0_SIZE

/-- TRISC2 base address from `l1_address_map.h`. -/
def TRISC2_BASE : Nat := TRISC1_BASE + TRISC1_SIZE

/-- Epoch runtime configuration base address from `l1_address_map.h`. -/
def EPOCH_RUNTIME_CONFIG_BASE : Nat := TRISC2_BASE + TRISC2_SIZE + TILE_HEADER_BUF_SIZE

/-- Data buffer base address from `l1_address_map.h`: the worker core
address targeted by the static-TLB and dynamic-TLB read/write tests. -/
def DATA_BUFFER_SPACE_BASE : Nat :=
  EPOCH_RUNTIME_CONFIG_BASE + EPOCH_RUNTIME_CONFIG_SIZE + OVERLAY_BLOB_SIZE

end l1_mem

/-- Word-addressed memory update: the data words land at consecutive
addresses starting at `base`, everything else is untouched.  Modelled from
the spec: a raw bus copy through a bound window. -/
def writeSeq (m : Nat → Nat) (base : Nat) (data : List Nat) : Nat → Nat :=
  fun a => if h : base ≤ a ∧ a - base < data.length then data.get ⟨a - base, h.2⟩ else m a

/-- Word-addressed memory read of `len` consecutive words starting at
`base`. -/
def readSeq (m : Nat → Nat) (base len : Nat) : List Nat :=
  (List.range len).map fun i => m (base + i)

/-- Reading back a just-written range returns the written data. -/
theorem readSeq_writeSeq (m : Nat → Nat) (base : Nat) (data : List Nat) :
    readSeq (writeSeq m base data) base data.length = data := by
  apply List.ext_getElem
  · simp [readSeq]
  · intro i h1 h2
    simp only [readSeq, List.getElem_map, List.getElem_range]
    unfold writeSeq
    have hc : base ≤ base + i ∧ base + i - base < data.length := by
      constructor
      · exact Nat.le_add_right _ _
      · simpa [Nat.add_sub_cancel_left] using h2
    rw [dif_pos hc]
    simp [List.get_eq_getElem, Nat.add_sub_cancel_left]

/-- Hardware translation window: its current target binding is a core and
a chip-side base address.  Modelled from the spec TLBWindow data model
(only the mutable target matters for the protocol). -/
structure TLBWindow where
  core : tt_xy_pair
  base : Nat
  deriving DecidableEq, Repr

/-- Chip state visible through the access engine: per-core word-addressed
L1 memory.  Modelled from the spec Access Engine collaborator contract. -/
structure DeviceState where
  mem : tt_xy_pair → Nat → Nat

/-- Raw bus copy of a word sequence through a window at an offset inside
its span.  Modelled from the spec: the window maps a host aperture to the
chip base address of its bound core. -/
def device_write_through (st : DeviceState) (w : TLBWindow) (offset : Nat)
    (data : List Nat) : DeviceState :=
  ⟨fun c => if c = w.core then writeSeq (st.mem c) (w.base + offset) data else st.mem c⟩

/-- Raw bus read of a word sequence through a window at an offset inside
its span. -/
def device_read_through (st : DeviceState) (w : TLBWindow) (offset len : Nat) : List Nat :=
  readSeq (st.mem w.core) (w.base + offset) len

/-- Statically bound window of a worker core: configured once for the
session at the data-buffer base, as in `configure_tlb` in the tests. -/
def static_window (core : tt_xy_pair) : TLBWindow :=
  ⟨core, l1_mem.DATA_BUFFER_SPACE_BASE⟩

/-- Write via the statically bound window: the transfer lands at the
requested address as an offset from the static binding. -/
def write_static (st : DeviceState) (core : tt_xy_pair) (addr : Nat)
    (data : List Nat) : DeviceState :=
  device_write_through st (static_window core) (addr - l1_mem.DATA_BUFFER_SPACE_BASE) data

/-- Write via the dynamically bound fallback window: the window is first
repointed at the requested core and address, then the copy is issued at
offset zero.  Modelled from the spec `acquire_dynamic` contract. -/
def write_dynamic (st : DeviceState) (core : tt_xy_pair) (addr : Nat)
    (data : List Nat) : DeviceState :=
  device_write_through st ⟨core, addr⟩ 0 data

/-- Read via the statically bound window. -/
def read_static (st : DeviceState) (core : tt_xy_pair) (addr len : Nat) : List Nat :=
  device_read_through st (static_window core) (addr - l1_mem.DATA_BUFFER_SPACE_BASE) len

/-- Read via the dynamically bound fallback window. -/
def read_dynamic (st : DeviceState) (core : tt_xy_pair) (addr len : Nat) : List Nat :=
  device_read_through st ⟨core, addr⟩ 0 len

/-- Poll loop body: succeed as soon as the current readback matches, give
up when the remaining iteration budget is exhausted; otherwise sample
again.  Mirrors the `while (!(vector_to_write == readback_vec))` loops of
the silicon driver tests, with the wall-clock deadline modelled as an
iteration budget. -/
def poll_go (sample : Nat → List Nat) (expected : List Nat) :
    Nat → Nat → List Nat → Nat × Bool × List Nat
  | remaining, t, cur =>
    if cur = expected then (t, true, cur)
    else
      match remaining with
      | 0 => (t, false, cur)
      | r + 1 => poll_go sample expected r (t + 1) (sample t)

/-- Poll until the sampled readback matches the expected value or the
deadline elapses, starting from an empty readback vector. -/
def poll_until (deadline : Nat) (sample : Nat → List Nat)
    (expected : List Nat) : Nat × Bool × List Nat :=
  poll_go sample expected (deadline + 1) 0 []

/-- The 10-word test payload `{0,1,...,9}` of the silicon driver tests. -/
def vector_to_write : List Nat := [0, 1, 2, 3, 4, 5, 6, 7, 8, 9]

/-- The 10-word all-zeros payload used to clear written data. -/
def zeros_vec : List Nat := List.replicate 10 0

/-- End-to-end write / poll-read / clear / readback protocol of the
`StaticTLB_RW` and `DynamicTLB_RW` tests, parameterised by the window
kind: write the payload to the worker core's data-buffer address, poll
until the readback matches or the deadline elapses, then overwrite with
zeros and read back.  Returns the two checks and the final device state. -/
def run_rw_protocol (use_static : Bool) (st : DeviceState) (core : tt_xy_pair)
    (addr : Nat) : Bool × Bool × DeviceState :=
  let st1 := if use_static then write_static st core addr vector_to_write
    else write_dynamic st core addr vector_to_write
  let res := poll_until 10
    (fun _ => if use_static then read_static st1 core addr 10
      else read_dynamic st1 core addr 10) vector_to_write
  let st2 := if use_static then write_static st1 core addr zeros_vec
    else write_dynamic st1 core addr zeros_vec
  let rb2 := if use_static then read_static st2 core addr 10
    else read_dynamic st2 core addr 10
  (decide (res.2.2 = vector_to_write), decide (rb2 = zeros_vec), st2)

/-- Writes through the statically bound window and through a freshly
repointed dynamic window land identically whenever the target address lies
at or above the static binding base. -/
theorem write_static_eq_dynamic (st : DeviceState) (core : tt_xy_pair)
    (addr : Nat) (data : List Nat) (h : l1_mem.DATA_BUFFER_SPACE_BASE ≤ addr) :
    write_static st core addr data = write_dynamic st core addr data := by
  unfold write_static write_dynamic device_write_through static_window
  dsimp only
  simp only [Nat.add_sub_cancel' h, Nat.add_zero]

/-- Reads through the statically bound window and through a freshly
repointed dynamic window observe the same words. -/
theorem read_static_eq_dynamic (st : DeviceState) (core : tt_xy_pair)
    (addr len : Nat) (h : l1_mem.DATA_BUFFER_SPACE_BASE ≤ addr) :
    read_static st core addr len = read_dynamic st core addr len := by
  unfold read_static read_dynamic device_read_through static_window
  dsimp only
  rw [Nat.add_sub_cancel' h, Nat.add_zero]

/-- Reading back through the dynamic window after writing through it
returns the written data. -/
theorem read_dynamic_write_dynamic (st : DeviceState) (core : tt_xy_pair)
    (addr : Nat) (data : List Nat) :
    read_dynamic (write_dynamic st core addr data) core addr data.length = data := by
  unfold read_dynamic write_dynamic device_read_through device_write_through
  dsimp only
  simp only [eq_self_iff_true, if_true, Nat.add_zero]
  exact readSeq_writeSeq _ _ _

/-- C7: the end-to-end write / poll-read / readback protocol gives
identical results through a statically bound window and through a
dynamically bound fallback window, and both checks succeed: the 10-word
sequence written to the worker core's data-buffer address reads back
equal, and after overwriting with zeros the core reads back all zeros. -/
theorem C7_static_dynamic_identical (st : DeviceState) (core : tt_xy_pair)
    (addr : Nat) (h : l1_mem.DATA_BUFFER_SPACE_BASE ≤ addr) :
    run_rw_protocol true st core addr = run_rw_protocol false st core addr ∧
    (run_rw_protocol false st core addr).1 = true ∧
    (run_rw_protocol false st core addr).2.1 = true := by
  have hZ : zeros_vec.length = 10 := by rfl
  have hV : vector_to_write.length = 10 := by rfl
  have hread1 :
      read_dynamic (write_dynamic st core addr vector_to_write) core addr 10 =
        vector_to_write := by
    rw [← hV]
    exact read_dynamic_write_dynamic st core addr vector_to_write
  have hread2 : ∀ s : DeviceState,
      read_dynamic (write_dynamic s core addr zeros_vec) core addr 10 = zeros_vec := by
    intro s
    rw [← hZ]
    exact read_dynamic_write_dynamic s core addr zeros_vec
  refine ⟨?_, ?_, ?_⟩
  · unfold run_rw_protocol
    simp only [eq_self_iff_true, Bool.false_eq_true, if_true, if_false,
      write_static_eq_dynamic _ _ _ _ h, read_static_eq_dynamic _ _ _ _ h]
  · unfold run_rw_protocol
    simp only [Bool.false_eq_true, if_false, hread1]
    rfl
  · unfold run_rw_protocol
    simp only [Bool.false_eq_true, if_false, hread2]
    rfl

/-- C7 witness: on the all-zero device state, the protocol at the
data-buffer base address of worker core (1, 1) is identical through both
window kinds and both checks pass. -/
theorem C7_witness :
    run_rw_protocol true ⟨fun _ _ => 0⟩ ⟨1, 1⟩ l1_mem.DATA_BUFFER_SPACE_BASE =
      run_rw_protocol false ⟨fun _ _ => 0⟩ ⟨1, 1⟩ l1_mem.DATA_BUFFER_SPACE_BASE ∧
    (run_rw_protocol false ⟨fun _ _ => 0⟩ ⟨1, 1⟩ l1_mem.DATA_BUFFER_SPACE_BASE).1 = true ∧
    (run_rw_protocol false ⟨fun _ _ => 0⟩ ⟨1, 1⟩ l1_mem.DATA_BUFFER_SPACE_BASE).2.1 = true :=
  C7_static_dynamic_identical ⟨fun _ _ => 0⟩ ⟨1, 1⟩ l1_mem.DATA_BUFFER_SPACE_BASE
    (Nat.le_refl _)

/-- The poll loop always returns after at most the iteration budget, its
flag records exactly whether the final readback matches, and a true flag
comes with the expected value. -/
theorem poll_go_spec (sample : Nat → List Nat) (expected : List Nat) :
    ∀ remaining t cur,
      ((poll_go sample expected remaining t cur).2.1 = true ↔
        (poll_go sample expected remaining t cur).2.2 = expected) ∧
      (poll_go sample expected remaining t cur).1 ≤ t + remaining := by
  intro remaining
  induction remaining with
  | zero =>
    intro t cur
    by_cases h : cur = expected <;> simp [poll_go, h]
  | succ r ih =>
    intro t cur
    by_cases h : cur = expected
    · simp [poll_go, h]
    · rw [poll_go, if_neg h]
      have hrec := ih (t + 1) (sample t)
      exact ⟨hrec.1, by omega⟩

/-- C8: every poll-for-expected-value loop terminates within the
caller-specified deadline: the returned iteration count is bounded by the
budget, and when the expected value was not observed the loop returns with
a caller-visible mismatch (flag false and a non-matching readback) rather
than blocking indefinitely. -/
theorem C8_poll_terminates_within_deadline (deadline : Nat)
    (sample : Nat → List Nat) (expected : List Nat) :
    ((poll_until deadline sample expected).2.1 = true ↔
      (poll_until deadline sample expected).2.2 = expected) ∧
    (poll_until deadline sample expected).1 ≤ deadline + 1 := by
  have hs := poll_go_spec sample expected (deadline + 1) 0 []
  exact ⟨hs.1, by simpa using hs.2⟩

/-- C8 witness: a poll that never observes the expected value returns the
visible timeout flag within the deadline, and a poll that observes it
immediately succeeds. -/
theorem C8_witness :
    ((poll_until 5 (fun _ => [0]) [1]).2.1 = false ∧
      (poll_until 5 (fun _ => [0]) [1]).1 ≤ 5 + 1) ∧
    (poll_until 5 (fun _ => [1]) [1]).2.1 = true :=
  ⟨⟨by decide, (C8_poll_terminates_within_deadline 5 (fun _ => [0]) [1]).2⟩, by decide⟩

/-- Memory operations issued by a host thread through the access engine:
a posted write of one word, a memory barrier, and a read of one word.
Modelled from the spec Access Engine contract and the
`MultiThreadedMemBar` test. -/
inductive MemOp where
  | write (addr val : Nat)
  | barrier
  | read (addr : Nat)
  deriving DecidableEq, Repr

/-- Shared access-engine state: the committed (visible) device memory and
the per-thread queue of posted writes not yet forced visible.  Modelled
from the spec ordering guarantees: posted writes may be buffered until a
barrier forces completion and visibility. -/
structure EngineState where
  mem : Nat → Nat
  pending : Bool → List (Nat × Nat)

/-- Commit a queue of posted writes to memory in issue order, the last
write to an address winning. -/
def applyWrites (m : Nat → Nat) (ws : List (Nat × Nat)) : Nat → Nat :=
  ws.foldl (fun mm w => fun a => if a = w.1 then w.2 else mm a) m

/-- One step of a thread: a write enqueues into the thread's posted
queue, a barrier commits and empties the issuing thread's queue
(establishing visibility of its prior writes), and a read observes the
committed memory. -/
def stepOp (s : EngineState) (t : Bool) : MemOp → EngineState × Option Nat
  | .write a v =>
    (⟨s.mem, fun u => if u = t then s.pending t ++ [(a, v)] else s.pending u⟩, none)
  | .barrier =>
    (⟨applyWrites s.mem (s.pending t), fun u => if u = t then [] else s.pending u⟩, none)
  | .read a => (s, some (s.mem a))

/-- Execute a tagged operation sequence (one entry per scheduler slot),
collecting the values observed by reads together with the reading
thread. -/
def exec : EngineState → List (Bool × MemOp) → EngineState × List (Bool × Nat)
  | s, [] => (s, [])
  | s, (t, op) :: rest =>
    let r := stepOp s t op
    let rr := exec r.1 rest
    (rr.1, (match r.2 with | some v => [(t, v)] | none => []) ++ rr.2)

/-- Arbitrary interleaving of two operation sequences, preserving each
sequence's program order - the scheduling model of the spec: independent
host threads whose bus operations interleave. -/
inductive Interleave : List (Bool × MemOp) → List (Bool × MemOp) → List (Bool × MemOp) → Prop where
  | nil : Interleave [] [] []
  | left : ∀ {x : Bool × MemOp} {l₁ l₂ l : List (Bool × MemOp)},
      Interleave l₁ l₂ l → Interleave (x :: l₁) l₂ (x :: l)
  | right : ∀ {x : Bool × MemOp} {l₁ l₂ l : List (Bool × MemOp)},
      Interleave l₁ l₂ l → Interleave l₁ (x :: l₂) (x :: l)

/-- Observations made by one thread. -/
def obs_of (t : Bool) (l : List (Bool × Nat)) : List (Bool × Nat) :=
  l.filter fun o => o.1 == t

/-- Operation sequence of one thread in the memory-barrier test: write a
payload word-by-word, issue the barrier, then read back one representative
word of the written region. -/
def thread_ops (t : Bool) (ws : List (Nat × Nat)) (readAddr : Nat) : List (Bool × MemOp) :=
  (ws.map fun w => (t, MemOp.write w.1 w.2)) ++ [(t, .barrier), (t, .read readAddr)]

/-- Interleaving is symmetric in the two threads. -/
theorem Interleave.symm {l₁ l₂ l : List (Bool × MemOp)}
    (h : Interleave l₁ l₂ l) : Interleave l₂ l₁ l := by
  induction h with
  | nil => exact .nil
  | left _ ih => exact .right ih
  | right _ ih => exact .left ih

/-- Committing writes reads back at an address using only that address's
prior value. -/
theorem applyWrites_congr_at {m m' : Nat → Nat} (ws : List (Nat × Nat)) (a : Nat)
    (h : m a = m' a) : applyWrites m ws a = applyWrites m' ws a := by
  induction ws generalizing m m' with
  | nil => exact h
  | cons w ws ih =>
    unfold applyWrites at *
    simp only [List.foldl_cons]
    apply ih
    by_cases hw : a = w.1 <;> simp [hw, h]

/-- Committing writes that all avoid an address leaves that address
untouched. -/
theorem applyWrites_avoid {m : Nat → Nat} {ws : List (Nat × Nat)} {a : Nat}
    (h : ∀ w ∈ ws, w.1 ≠ a) : applyWrites m ws a = m a := by
  induction ws generalizing m with
  | nil => rfl
  | cons w ws ih =>
    unfold applyWrites at *
    simp only [List.foldl_cons]
    rw [ih fun w hw => h w (List.mem_cons_of_mem _ hw)]
    have hw : w.1 ≠ a := h w (List.mem_cons_self _ _)
    have hne : ¬a = w.1 := fun e => hw e.symm
    simp [hne]

/-- Observations of a thread keep their own entries. -/
theorem obs_of_cons_same (t : Bool) (v : Nat) (l : List (Bool × Nat)) :
    obs_of t ((t, v) :: l) = (t, v) :: obs_of t l := by
  simp [obs_of]

/-- Observations of a thread drop the other thread's entries. -/
theorem obs_of_cons_other {u t : Bool} (h : u ≠ t) (v : Nat) (l : List (Bool × Nat)) :
    obs_of t ((u, v) :: l) = obs_of t l := by
  simp [obs_of, h]

/-- Simulation: when the other thread's interleaved operations never write
the address a thread reads, that thread observes in any interleaving
exactly what it observes running alone, provided the starting states agree
on the read address and on the thread's posted queue, and no foreign
posted write targets that address. -/
theorem exec_obs_agree (t : Bool) (a : Nat) :
    ∀ {l₁ l₂ l : List (Bool × MemOp)}, Interleave l₁ l₂ l →
    ∀ s s' : EngineState,
    (∀ q ∈ l₁, q.1 = t) →
    (∀ q ∈ l₂, q.1 ≠ t) →
    (∀ q ∈ l₂, ∀ v : Nat, q.2 ≠ MemOp.write a v) →
    (∀ q ∈ l₁, ∀ b : Nat, q.2 = MemOp.read b → b = a) →
    (∀ u : Bool, u ≠ t → ∀ w ∈ s.pending u, w.1 ≠ a) →
    s.mem a = s'.mem a →
    s.pending t = s'.pending t →
    obs_of t (exec s l).2 = obs_of t (exec s' l₁).2 := by
  intro l₁ l₂ l hI
  induction hI with
  | nil =>
    intro s s' _ _ _ _ _ _ _
    rfl
  | left hI ih =>
    rename_i x l₁ l₂ l
    intro s s' h₁ h₂ h₂w h₁r hinv hmem hpend
    obtain ⟨tx, op⟩ := x
    have htx : tx = t := h₁ (tx, op) (List.mem_cons_self _ _)
    subst tx
    have h₁t : ∀ q ∈ l₁, q.1 = t := fun q hq => h₁ q (List.mem_cons_of_mem _ hq)
    have h₁rt : ∀ q ∈ l₁, ∀ b : Nat, q.2 = MemOp.read b → b = a :=
      fun q hq => h₁r q (List.mem_cons_of_mem _ hq)
    cases op with
    | write b v =>
      simp only [exec, stepOp, List.nil_append]
      apply ih _ _ h₁t h₂ h₂w h₁rt
      · intro u hu w hw
        simp only [if_neg hu] at hw
        exact hinv u hu w hw
      · exact hmem
      · simp only [if_pos rfl, hpend]
    | barrier =>
      simp only [exec, stepOp, List.nil_append]
      apply ih _ _ h₁t h₂ h₂w h₁rt
      · intro u hu w hw
        simp only [if_neg hu] at hw
        exact hinv u hu w hw
      · show applyWrites s.mem (s.pending t) a = applyWrites s'.mem (s'.pending t) a
        rw [hpend]
        exact applyWrites_congr_at _ _ hmem
      · simp
    | read b =>
      have hb : b = a := h₁r (t, .read b) (List.mem_cons_self _ _) b rfl
      subst hb
      simp only [exec, stepOp]
      rw [List.singleton_append, List.singleton_append,
        obs_of_cons_same, obs_of_cons_same, hmem]
      exact congrArg _ (ih s s' h₁t h₂ h₂w h₁rt hinv hmem hpend)
  | right hI ih =>
    rename_i x l₁ l₂ l
    intro s s' h₁ h₂ h₂w h₁r hinv hmem hpend
    obtain ⟨tx, op⟩ := x
    have htx : tx ≠ t := h₂ (tx, op) (List.mem_cons_self _ _)
    have htx' : t ≠ tx := fun e => htx e.symm
    have h₂t : ∀ q ∈ l₂, q.1 ≠ t := fun q hq => h₂ q (List.mem_cons_of_mem _ hq)
    have h₂wt : ∀ q ∈ l₂, ∀ v : Nat, q.2 ≠ MemOp.write a v :=
      fun q hq => h₂w q (List.mem_cons_of_mem _ hq)
    cases op with
    | write b v =>
      have hba : b ≠ a := by
        intro e
        subst e
        exact h₂w (tx, .write b v) (List.mem_cons_self _ _) v rfl
      simp only [exec, stepOp, List.nil_append]
      apply ih _ _ h₁ h₂t h₂wt h₁r
      · intro u hu w hw
        by_cases hux : u = tx
        · subst hux
          simp only [if_pos rfl] at hw
          rcases List.mem_append.mp hw with hw | hw
          · exact hinv u hu w hw
          · have hwv : w = (b, v) := by simpa using hw
            subst hwv
            exact hba
        · simp only [if_neg hux] at hw
          exact hinv u hu w hw
      · exact hmem
      · simp only [if_neg htx']
        exact hpend
    | barrier =>
      simp only [exec, stepOp, List.nil_append]
      apply ih _ _ h₁ h₂t h₂wt h₁r
      · intro u hu w hw
        by_cases hux : u = tx
        · subst hux
          simp only [if_pos rfl] at hw
          exact absurd hw (List.not_mem_nil w)
        · simp only [if_neg hux] at hw
          exact hinv u hu w hw
      · show applyWrites s.mem (s.pending tx) a = s'.mem a
        rw [applyWrites_avoid (hinv tx htx), hmem]
      · simp only [if_neg htx']
        exact hpend
    | read b =>
      simp only [exec, stepOp]
      rw [List.singleton_append, obs_of_cons_other htx]
      exact ih s s' h₁ h₂t h₂wt h₁r hinv hmem hpend

/-- Executing a block of posted writes only enqueues them on the issuing
thread's queue, in order, observing nothing. -/
theorem exec_write_ops (t : Bool) (rest : List (Bool × MemOp)) :
    ∀ (ws : List (Nat × Nat)) (s : EngineState),
      exec s ((ws.map fun w => (t, MemOp.write w.1 w.2)) ++ rest) =
        exec ⟨s.mem, fun u => if u = t then s.pending t ++ ws else s.pending u⟩ rest := by
  intro ws
  induction ws with
  | nil =>
    intro s
    simp only [List.map_nil, List.nil_append, List.append_nil]
    have hfun : (fun u => if u = t then s.pending t else s.pending u) = s.pending := by
      funext u
      by_cases hu : u = t <;> simp [hu]
    rw [hfun]
  | cons w ws ih =>
    intro s
    simp only [List.map_cons, List.cons_append, exec, stepOp, List.nil_append,
      List.append_eq, Prod.mk.eta]
    rw [ih]
    have hstate : ∀ p₁ p₂ : Bool → List (Nat × Nat), p₁ = p₂ →
        exec ⟨s.mem, p₁⟩ rest = exec ⟨s.mem, p₂⟩ rest := by
      intro p₁ p₂ h
      rw [h]
    apply hstate
    funext u
    by_cases hu : u = t <;> simp [hu, List.append_assoc]

/-- Executing a barrier followed by a readback commits the issuing
thread's posted queue and observes the committed value. -/
theorem exec_barrier_read (t : Bool) (s : EngineState) (addr : Nat) :
    exec s [(t, .barrier), (t, .read addr)] =
      (⟨applyWrites s.mem (s.pending t), fun u => if u = t then [] else s.pending u⟩,
        [(t, applyWrites s.mem (s.pending t) addr)]) := by
  simp [exec, stepOp]

/-- Running one thread's script alone: the single observation is the last
value the thread posted to the read address (or the initial memory if it
never wrote it), made visible by its barrier. -/
theorem exec_thread_ops (t : Bool) (ws : List (Nat × Nat)) (addr : Nat)
    (s : EngineState) (hp : s.pending t = []) :
    (exec s (thread_ops t ws addr)).2 = [(t, applyWrites s.mem ws addr)] := by
  unfold thread_ops
  rw [exec_write_ops, exec_barrier_read]
  simp [hp]

/-- Every operation in a thread's script carries that thread's tag. -/
theorem thread_ops_tag (t : Bool) (ws : List (Nat × Nat)) (addr : Nat) :
    ∀ q ∈ thread_ops t ws addr, q.1 = t := by
  intro q hq
  unfold thread_ops at hq
  rcases List.mem_append.mp hq with hq | hq
  · obtain ⟨w, _, rfl⟩ := List.mem_map.mp hq
    rfl
  · simp only [List.mem_cons, List.mem_singleton] at hq
    rcases hq with rfl | rfl | hq
    · rfl
    · rfl
    · exact absurd hq (List.not_mem_nil q)

/-- A thread whose payload avoids an address issues no write to it. -/
theorem thread_ops_no_write (t : Bool) (ws : List (Nat × Nat)) (addr a : Nat)
    (h : ∀ w ∈ ws, w.1 ≠ a) :
    ∀ q ∈ thread_ops t ws addr, ∀ v : Nat, q.2 ≠ MemOp.write a v := by
  intro q hq v he
  unfold thread_ops at hq
  rcases List.mem_append.mp hq with hq | hq
  · obtain ⟨w, hw, rfl⟩ := List.mem_map.mp hq
    have : w.1 = a := by
      have := congrArg (fun op => match op with
        | MemOp.write b _ => b
        | _ => 0) he
      simpa using this
    exact h w hw this
  · simp only [List.mem_cons, List.mem_singleton] at hq
    rcases hq with rfl | rfl | hq
    · exact absurd he (by simp)
    · exact absurd he (by simp)
    · exact absurd hq (List.not_mem_nil q)

/-- A thread's script reads only its own readback address. -/
theorem thread_ops_read_addr (t : Bool) (ws : List (Nat × Nat)) (addr : Nat) :
    ∀ q ∈ thread_ops t ws addr, ∀ b : Nat, q.2 = MemOp.read b → b = addr := by
  intro q hq b he
  unfold thread_ops at hq
  rcases List.mem_append.mp hq with hq | hq
  · obtain ⟨w, _, rfl⟩ := List.mem_map.mp hq
    exact absurd he (by simp)
  · simp only [List.mem_cons, List.mem_singleton] at hq
    rcases hq with rfl | rfl | hq
    · exact absurd he (by simp)
    · have := congrArg (fun op => match op with
        | MemOp.read b => b
        | _ => addr) he
      simpa using this.symm
    · exact absurd hq (List.not_mem_nil q)

/-- C9: under concurrency, two threads each posting writes to disjoint
address regions, each issuing its own barrier and then reading back its
own region, never observe the other thread's payload: in every
interleaving each thread's readback is exactly its own last posted value,
made visible by its own barrier (the barrier orders the issuing thread's
prior writes before any subsequent read of the address). -/
theorem C9_membar_isolation (ws1 ws2 : List (Nat × Nat)) (a1 a2 : Nat)
    (m0 : Nat → Nat) (l : List (Bool × MemOp))
    (hI : Interleave (thread_ops true ws1 a1) (thread_ops false ws2 a2) l)
    (h2 : ∀ w ∈ ws2, w.1 ≠ a1) (h1 : ∀ w ∈ ws1, w.1 ≠ a2) :
    obs_of true (exec ⟨m0, fun _ => []⟩ l).2 = [(true, applyWrites m0 ws1 a1)] ∧
    obs_of false (exec ⟨m0, fun _ => []⟩ l).2 = [(false, applyWrites m0 ws2 a2)] := by
  constructor
  · rw [exec_obs_agree true a1 hI ⟨m0, fun _ => []⟩ ⟨m0, fun _ => []⟩
      (thread_ops_tag true ws1 a1)
      (fun q hq => by
        rw [thread_ops_tag false ws2 a2 q hq]
        exact Bool.false_ne_true)
      (thread_ops_no_write false ws2 a2 a1 h2)
      (thread_ops_read_addr true ws1 a1)
      (fun u hu w hw => absurd hw (List.not_mem_nil w))
      rfl rfl]
    rw [exec_thread_ops true ws1 a1 ⟨m0, fun _ => []⟩ rfl]
    simp [obs_of]
  · rw [exec_obs_agree false a2 hI.symm ⟨m0, fun _ => []⟩ ⟨m0, fun _ => []⟩
      (thread_ops_tag false ws2 a2)
      (fun q hq => by
        rw [thread_ops_tag true ws1 a1 q hq]
        exact fun e => Bool.false_ne_true e.symm)
      (thread_ops_no_write true ws1 a1 a2 h1)
      (thread_ops_read_addr false ws2 a2)
      (fun u hu w hw => absurd hw (List.not_mem_nil w))
      rfl rfl]
    rw [exec_thread_ops false ws2 a2 ⟨m0, fun _ => []⟩ rfl]
    simp [obs_of]

/-- C9 witness: in the alternating interleaving of two threads writing
disjoint addresses 0 and 1, each thread's post-barrier readback observes
its own payload only. -/
theorem C9_witness :
    obs_of true (exec ⟨fun _ => 0, fun _ => []⟩
      [(true, .write 0 5), (false, .write 1 7), (true, .barrier), (false, .barrier),
        (true, .read 0), (false, .read 1)]).2 = [(true, 5)] ∧
    obs_of false (exec ⟨fun _ => 0, fun _ => []⟩
      [(true, .write 0 5), (false, .write 1 7), (true, .barrier), (false, .barrier),
        (true, .read 0), (false, .read 1)]).2 = [(false, 7)] := by
  have h := C9_membar_isolation [(0, 5)] [(1, 7)] 0 1 (fun _ => 0)
    [(true, .write 0 5), (false, .write 1 7), (true, .barrier), (false, .barrier),
      (true, .read 0), (false, .read 1)]
    (Interleave.left (Interleave.right (Interleave.left (Interleave.right
      (Interleave.left (Interleave.right Interleave.nil))))))
    (by decide) (by decide)
  exact ⟨h.1.trans (by decide), h.2.trans (by decide)⟩
